import Mathlib

/-!
# Verification of the js-lock library (src/Lock.js)

A shallow embedding of the `Lock` class of `src/Lock.js`:

* the argument validation of `Lock.prototype.lock` (lines 102-119),
* the acquire / enqueue / timeout / release protocol of `lock`
  (lines 121-147), embedded as a small-step machine over an explicit
  scheduler state (JavaScript's single-threaded event loop: steps are
  atomic between suspension points),
* the composite acquisition algorithm `Lock.all` (lines 170-222):
  its acquisition order (including the engine semantics of
  `Array.prototype.sort` applied to the callback `lock => lock.name`),
  its timeout-budget recursion, and its array (non-)mutation, the
  latter over a tiny array heap.

Tasks are abstracted by a length (number of scheduler steps their body
takes) and an outcome (a returned value or a thrown error, with opaque
payloads); timers are abstracted by a millisecond clock advanced by
`tick` events, with a timer-fire event enabled once the deadline passed.
-/

/-- Outcome of a task body: a returned value or a thrown error.
Payloads are opaque (`Nat` tags). -/
inductive TaskOutcome where
  | ok (v : Nat)
  | err (e : Nat)
deriving DecidableEq

/-- Abstraction of a task passed to `lock`: how many scheduler steps its
body takes once started, and how it ends. -/
structure TaskSpec where
  steps : Nat
  outcome : TaskOutcome
deriving DecidableEq

/-- The `task` argument of `lock` as validated on line 103:
either not invocable (`task instanceof Function` is false) or a function
abstracted by a `TaskSpec`. -/
inductive TaskArg where
  | notFn
  | fn (spec : TaskSpec)
deriving DecidableEq

/-- A JavaScript number as far as the validation on lines 108-119
distinguishes them: a finite value (modelled as a rational — every finite
double is one), `Infinity`, `-Infinity`, or `NaN`. -/
inductive JSNum where
  | fin (q : ℚ)
  | posInf
  | negInf
  | nan
deriving DecidableEq

/-- The `timeout` argument of `lock`: a number, or a value of any other
`typeof` (line 108's `typeof timeout !== 'number'`). -/
inductive TimeoutArg where
  | num (x : JSNum)
  | nonNum
deriving DecidableEq

/-- `Math.floor(timeout) === timeout` (line 108).  Per ECMAScript,
`Math.floor` fixes infinities (`Math.floor(Infinity) === Infinity`) and
maps `NaN` to `NaN`, and `NaN === NaN` is false. -/
def jsFloorEqSelf : JSNum → Bool
  | .fin q => q.den = 1
  | .posInf => true
  | .negInf => true
  | .nan => false

/-- `timeout < 0` (line 114).  Comparisons with `NaN` are false. -/
def jsLtZero : JSNum → Bool
  | .fin q => q < 0
  | .posInf => false
  | .negInf => true
  | .nan => false

/-- Kind of validation error thrown by `lock` (the spec's
`InvalidArgument` is a JavaScript `TypeError`, its `InvalidRange` a
`RangeError`). -/
inductive VErr where
  | typeErr
  | rangeErr
deriving DecidableEq

/-- Lines 103-119 of `Lock.js`: `task` must be a `Function`
(else `TypeError`); `timeout` must be a number with
`Math.floor(timeout) === timeout` (else `TypeError`); `timeout < 0`
throws a `RangeError`.  Returns `none` when validation passes. -/
def lockValidate (task : TaskArg) (timeout : TimeoutArg) : Option VErr :=
  match task with
  | .notFn => some .typeErr
  | .fn _ =>
    match timeout with
    | .nonNum => some .typeErr
    | .num x =>
      if jsFloorEqSelf x = false then some .typeErr
      else if jsLtZero x = true then some .rangeErr
      else none

/-- The flag-and-queue state of one `Lock` instance
(`this[PRIVATE.locked]` and `this[PRIVATE.taskTriggerQueue]`, the queue
entries identified by the id of the caller that pushed them). -/
structure LockState where
  locked : Bool
  queue : List Nat
deriving DecidableEq

/-- Lines 102-134 of `Lock.js` in state-passing form: validation, then —
only when validation passed — the acquire-or-enqueue step.  A `throw`
leaves the state exactly as it was (the code mutates nothing before
line 121).  Returns the state, the error if any, and whether the caller
was enqueued as a waiter. -/
def lockEnter (st : LockState) (t : Nat) (task : TaskArg) (timeout : TimeoutArg) :
    LockState × Option VErr × Bool :=
  match lockValidate task timeout with
  | some e => (st, some e, false)
  | none =>
    if st.locked then ({ locked := st.locked, queue := st.queue ++ [t] }, none, true)
    else ({ locked := true, queue := st.queue }, none, false)

/-- The `TimeoutError` message built on lines 127-128. -/
def timeoutMessage (name : String) (timeout : Nat) : String :=
  "The provided task did not acquire the " ++ name ++ " lock within " ++
    "the specified timeout of " ++ toString timeout ++ " milliseconds"

/-- How a `lock()` call settles: resolved with the task's value,
rejected with the task's own error, or rejected with the
`TimeoutError` of lines 126-129. -/
inductive CallResult where
  | value (v : Nat)
  | taskFailure (e : Nat)
  | lockTimeout (msg : String)
deriving DecidableEq

/-- Where one (validated) `lock()` call stands:

* `idle`: the call has not run yet; its task and (validated, finite)
  timeout are fixed by the script.
* `waiting`: suspended in the `await new Promise` of lines 122-131,
  its `resolve` pushed on the queue at time `enqAt`; `tout = 0` means no
  timer was started (line 125's `if (timeout)`).
* `running`: holds the lock, executing the task body (line 137).
* `done`: the call settled. -/
inductive Phase where
  | idle (spec : TaskSpec) (tout : Nat)
  | waiting (spec : TaskSpec) (tout : Nat) (enqAt : Nat)
  | running (stepsLeft : Nat) (outcome : TaskOutcome)
  | done (result : CallResult)
deriving DecidableEq

def Phase.isIdle : Phase → Bool
  | .idle _ _ => true
  | _ => false

def Phase.isRunning : Phase → Bool
  | .running _ _ => true
  | _ => false

def Phase.isWaiting : Phase → Bool
  | .waiting _ _ _ => true
  | _ => false

/-- State of one `Lock` together with the calls interacting with it:
the lock's immutable `name`, the `locked` flag, the trigger queue
(ids of the calls whose `resolve` sits in it, stale entries of
timed-out waiters included, exactly as in the code), the calls
themselves (indexed by id), and the millisecond clock. -/
structure LockSys where
  name : String
  locked : Bool
  queue : List Nat
  threads : List Phase
  now : Nat
deriving DecidableEq

def getPhase (s : LockSys) (t : Nat) : Option Phase :=
  s.threads.get? t

def setPhase (s : LockSys) (t : Nat) (p : Phase) : LockSys :=
  { s with threads := s.threads.set t p }

/-- `CallResult` of a task outcome on the non-timeout path:
line 137 `return await task()` resolves with the value, the rethrow of
lines 138-139 rejects with the task's own error. -/
def resultOf : TaskOutcome → CallResult
  | .ok v => .value v
  | .err e => .taskFailure e

/-- Scheduler events: a call runs lines 121-134 (`call`), a task body
makes internal progress (`work`), a task body completes and runs the
`finally` of lines 140-147 (`finish`), a pending timer of line 126
fires (`fire`), or the clock advances one millisecond (`tick`). -/
inductive Ev where
  | call (t : Nat)
  | work (t : Nat)
  | finish (t : Nat)
  | fire (t : Nat)
  | tick
deriving DecidableEq

def Ev.isFire : Ev → Bool
  | .fire _ => true
  | _ => false

/-- Lines 121-134: if the lock is held, push the caller's `resolve` and
suspend (starting a `timeout`-millisecond timer unless `timeout` is 0);
otherwise set the flag and proceed straight into the task body. -/
def doCall (s : LockSys) (t : Nat) : Option LockSys :=
  match getPhase s t with
  | some (.idle sp tout) =>
    if s.locked then
      some { name := s.name, locked := s.locked, queue := s.queue ++ [t],
             threads := s.threads.set t (.waiting sp tout s.now), now := s.now }
    else
      some { name := s.name, locked := true, queue := s.queue,
             threads := s.threads.set t (.running sp.steps sp.outcome), now := s.now }
  | _ => none

/-- One unit of progress of a running task body (line 137). -/
def doWork (s : LockSys) (t : Nat) : Option LockSys :=
  match getPhase s t with
  | some (.running (k + 1) out) =>
    some (setPhase s t (.running k out))
  | _ => none

/-- Lines 136-147: the task body completes (normally or by throwing) and
the `finally` block runs.  If the queue is non-empty its head is
shifted and its trigger called: that resumes the head caller only when
its promise is still pending (it is `waiting`); resolving the
already-rejected promise of a timed-out waiter is a no-op, yet the
release was consumed and `locked` keeps its value.  If the queue is
empty, `locked` is cleared.  The call then settles with the task's
result or rethrown error. -/
def doFinish (s : LockSys) (t : Nat) : Option LockSys :=
  match getPhase s t with
  | some (.running 0 out) =>
    match s.queue with
    | [] =>
      some { name := s.name, locked := false, queue := [],
             threads := s.threads.set t (.done (resultOf out)), now := s.now }
    | w :: rest =>
      match (s.threads.set t (.done (resultOf out))).get? w with
      | some (.waiting sp _ _) =>
        some { name := s.name, locked := s.locked, queue := rest,
               threads := (s.threads.set t (.done (resultOf out))).set w
                 (.running sp.steps sp.outcome),
               now := s.now }
      | _ =>
        some { name := s.name, locked := s.locked, queue := rest,
               threads := s.threads.set t (.done (resultOf out)), now := s.now }
  | _ => none

/-- Lines 126-129: the timer of a waiter whose `timeout` was non-zero
fires once `timeout` milliseconds have passed, rejecting the pending
promise with a `TimeoutError`.  The waiter's queue entry is *not*
removed.  No timer exists when `timeout` was 0, and rejecting an
already-resolved promise would be a no-op, so the event requires the
caller to still be `waiting`. -/
def doFire (s : LockSys) (t : Nat) : Option LockSys :=
  match getPhase s t with
  | some (.waiting _ tout enqAt) =>
    if tout ≠ 0 ∧ enqAt + tout ≤ s.now then
      some (setPhase s t (.done (.lockTimeout (timeoutMessage s.name tout))))
    else none
  | _ => none

/-- One scheduler step. -/
def stepFn (s : LockSys) : Ev → Option LockSys
  | .call t => doCall s t
  | .work t => doWork s t
  | .finish t => doFinish s t
  | .fire t => doFire s t
  | .tick => some { name := s.name, locked := s.locked, queue := s.queue,
                    threads := s.threads, now := s.now + 1 }

/-- Run a script of events (an interleaving chosen by the event loop);
`none` when some event is not enabled. -/
def runScript : LockSys → List Ev → Option LockSys
  | s, [] => some s
  | s, e :: es =>
    match stepFn s e with
    | some s' => runScript s' es
    | none => none

/-- A fresh lock with no call started yet: the constructor leaves
`locked` false and the queue empty (lines 56, 67). -/
def InitState (s : LockSys) : Prop :=
  s.locked = false ∧ s.queue = [] ∧ s.threads.all Phase.isIdle = true

instance (s : LockSys) : Decidable (InitState s) := by
  unfold InitState; infer_instance

/-- The ids acquiring the lock directly in a `call` event: a caller
finding the lock free takes it without enqueueing (lines 132-134). -/
def callAcquires (s : LockSys) (u : Nat) : List Nat :=
  match getPhase s u with
  | some (.idle _ _) => if s.locked then [] else [u]
  | _ => []

/-- The ids granted the lock from the queue in a `finish` event by `u`:
the shifted head, provided its promise is still pending (lines 141-143
wake it); a stale (timed-out) head is granted nothing. -/
def finishGrants (s : LockSys) (u : Nat) : List Nat :=
  match getPhase s u with
  | some (.running 0 _) =>
    match s.queue with
    | [] => []
    | w :: _ =>
      match getPhase s w with
      | some (.waiting _ _ _) => [w]
      | _ => []
  | _ => []

/-- Ids becoming the holder in one event (directly or from the queue). -/
def acquiredOf (s : LockSys) : Ev → List Nat
  | .call u => callAcquires s u
  | .finish u => finishGrants s u
  | _ => []

/-- Ids whose `finally` release step (lines 140-147) runs in one event. -/
def releasedOf (s : LockSys) : Ev → List Nat
  | .finish u =>
    match getPhase s u with
    | some (.running 0 _) => [u]
    | _ => []
  | _ => []

/-- Ids enqueued as waiters in one event (line 123). -/
def enqueuedOf (s : LockSys) : Ev → List Nat
  | .call u =>
    match getPhase s u with
    | some (.idle _ _) => if s.locked then [u] else []
    | _ => []
  | _ => []

/-- Ids granted from the queue in one event. -/
def grantedOf (s : LockSys) : Ev → List Nat
  | .finish u => finishGrants s u
  | _ => []

/-- Concatenate, over a valid run of a script, the ids some per-event
observation function yields. -/
def traceOf (f : LockSys → Ev → List Nat) : LockSys → List Ev → List Nat
  | _, [] => []
  | s, e :: es =>
    match stepFn s e with
    | some s' => f s e ++ traceOf f s' es
    | none => []

/-- How often a call has acquired the lock, read off its phase. -/
def phaseA : Phase → Nat
  | .running _ _ => 1
  | .done (.value _) => 1
  | .done (.taskFailure _) => 1
  | _ => 0

/-- How often a call has run the release step, read off its phase. -/
def phaseR : Phase → Nat
  | .done (.value _) => 1
  | .done (.taskFailure _) => 1
  | _ => 0

def phaseA? : Option Phase → Nat
  | some p => phaseA p
  | none => 0

def phaseR? : Option Phase → Nat
  | some p => phaseR p
  | none => 0

/-- The acquire/release bookkeeping a call's final phase implies:
never released without having acquired, released exactly when the call
completed a task it ran, and never after a timeout. -/
def callLifecycle (p : Option Phase) (a r : Nat) : Prop :=
  match p with
  | some (.idle _ _) => a = 0 ∧ r = 0
  | some (.waiting _ _ _) => a = 0 ∧ r = 0
  | some (.running _ _) => a = 1 ∧ r = 0
  | some (.done (.lockTimeout _)) => a = 0 ∧ r = 0
  | some (.done _) => a = 1 ∧ r = 1
  | none => a = 0 ∧ r = 0

/-- Every queued entry belongs to a still-waiting caller, and no caller
is queued twice. -/
def queueOK (s : LockSys) : Prop :=
  (∀ t ∈ s.queue, (getPhase s t).any Phase.isWaiting = true) ∧ s.queue.Nodup

/-- No call currently holds the lock. -/
def noRunningB (s : LockSys) : Bool :=
  s.threads.all (fun p => !p.isRunning)


/-- Value of a non-empty string of decimal digits. -/
def digitsVal : List Char → Nat
  | [] => 0
  | c :: cs => (c.toNat - '0'.toNat) * 10 ^ cs.length + digitsVal cs

/-- ECMAScript `ToNumber` on a string, restricted to the shapes a lock
name takes here: a string of decimal digits denotes that number, the
empty string denotes 0, and any other string is `NaN` (`none`). -/
def jsStringToNumber (s : String) : Option Int :=
  if s.data = [] then some 0
  else if s.data.all Char.isDigit then some (Int.ofNat (digitsVal s.data))
  else none

/-- The value ECMAScript's `SortCompare` derives from the comparator
`lock => lock.name` of line 214: the callback is invoked with the pair
`(x, y)`, ignores `y`, and returns `x.name`, a string; `SortCompare`
applies `ToNumber` to it and replaces `NaN` by `+0`. -/
def sortCompare (x y : String) : Int :=
  match jsStringToNumber x with
  | some v => v
  | none => 0

/-- Stable insertion step for the engine's sort: keep `x` before `y`
exactly when the comparator does not order `x` after `y`. -/
def sortedInsert (x : String) : List String → List String
  | [] => [x]
  | y :: ys => if sortCompare x y ≤ 0 then x :: y :: ys else y :: sortedInsert x ys

/-- `Array.prototype.sort` with the comparator of line 214, as the
stable sort mandated since ES2019 (and implemented by engines for small
arrays as insertion sort): elements the comparator leaves unordered keep
their relative order. -/
def jsSortByName (l : List String) : List String :=
  l.foldr sortedInsert []

theorem length_sortedInsert (x : String) (l : List String) :
    (sortedInsert x l).length = l.length + 1 := by
  induction l with
  | nil => rfl
  | cons y ys ih =>
    simp only [sortedInsert]
    split
    · simp
    · simp [ih]

theorem length_jsSortByName (l : List String) :
    (jsSortByName l).length = l.length := by
  induction l with
  | nil => rfl
  | cons x xs ih =>
    simp only [jsSortByName, List.foldr] at *
    rw [length_sortedInsert, ih, List.length_cons]

/-- Recursion worker for `allAcquireOrder`; the fuel argument only
bounds the recursion depth (one lock is consumed per level, so a fuel
equal to the number of locks always suffices). -/
def allAcquireOrderF : Nat → List String → List String
  | _, [] => []
  | _, [n] => [n]
  | 0, _ :: _ :: _ => []
  | fuel + 1, a :: b :: rest =>
    match jsSortByName (a :: b :: rest) with
    | [] => []
    | s :: srest => s :: allAcquireOrderF fuel srest

/-- The order in which `Lock.all` (lines 210-221) acquires the locks,
identified by their names: one lock delegates directly; otherwise the
first element of the engine-sorted copy is acquired, then the algorithm
recurses on the rest of the sorted copy. -/
def allAcquireOrder (l : List String) : List String :=
  allAcquireOrderF l.length l

/-- Modelled from the spec: the order the spec demands — "locks are
sorted by name using a total, deterministic order (lexicographic string
comparison)" — as a stable insertion sort by the ≤ of strings. -/
def lexInsert (x : String) : List String → List String
  | [] => [x]
  | y :: ys => if compare x y ≠ Ordering.gt then x :: y :: ys else y :: lexInsert x ys

/-- Modelled from the spec: lexicographically sorted lock names. -/
def lexSortNames (l : List String) : List String :=
  l.foldr lexInsert []

/-- Line 219: the budget passed to the recursive `Lock.all` call,
`Math.max(timeout - timeWaited, 1)`. -/
def remainingTime (timeout timeWaited : Int) : Int :=
  max (timeout - timeWaited) 1

/-- The (lock, timeout-budget) pairs of the chain of `lock` calls
`Lock.all` issues (lines 210-221), given the wall-clock wait each
acquisition takes: a single lock delegates directly with the current
budget; otherwise the first sorted lock is acquired with the full
current budget and the algorithm recurses with
`remainingTime budget waited`. -/
def allBudgetsF : Nat → List String → Int → List Nat → List (String × Int)
  | _, [], _, _ => []
  | _, [n], t, _ => [(n, t)]
  | 0, _ :: _ :: _, _, _ => []
  | fuel + 1, a :: b :: rest, t, ws =>
    match jsSortByName (a :: b :: rest) with
    | [] => []
    | s :: srest =>
      (s, t) :: allBudgetsF fuel srest (remainingTime t (Int.ofNat (ws.headD 0))) ws.tail

/-- See `allBudgetsF`; the fuel equal to the number of locks always
suffices, since every level consumes one lock. -/
def allBudgets (l : List String) (t : Int) (ws : List Nat) : List (String × Int) :=
  allBudgetsF l.length l t ws

/-- A heap of JavaScript arrays (of lock names): `Lock.all` mutates
arrays only through `sort` and `shift`, both applied to fresh `slice`
copies, so the caller's array must survive unchanged. -/
structure JsHeap where
  arrays : List (List String)
deriving DecidableEq

/-- `slice()`: allocate a fresh array holding the given elements and
return the heap and the new reference. -/
def allocArr (h : JsHeap) (a : List String) : JsHeap × Nat :=
  ({ arrays := h.arrays ++ [a] }, h.arrays.length)

def getArr (h : JsHeap) (r : Nat) : List String :=
  (h.arrays.get? r).getD []

/-- In-place mutation of the array behind a reference (what `sort` and
`shift` do). -/
def setArr (h : JsHeap) (r : Nat) (a : List String) : JsHeap :=
  { arrays := h.arrays.set r a }

/-- The array operations of `Lock.all` (lines 210-221), recursion
unrolled on a fuel bound: the base case touches no array; otherwise
`locks.slice()` allocates a copy, `.sort(...)` mutates that copy in
place, `sortedLocks.slice().shift()` mutates another fresh copy, and the
recursion receives the fresh array `sortedLocks.slice(1)`.  Any
truncation by fuel models the chain aborting early (timeout or task
error): the array effects up to that point are the same. -/
def lockAllHeap : Nat → JsHeap → Nat → JsHeap
  | 0, h, _ => h
  | fuel + 1, h, r =>
    if (getArr h r).length ≤ 1 then h
    else
      let p1 := allocArr h (getArr h r)
      let h2 := setArr p1.1 p1.2 (jsSortByName (getArr p1.1 p1.2))
      let p2 := allocArr h2 (getArr h2 p1.2)
      let h4 := setArr p2.1 p2.2 ((getArr p2.1 p2.2).drop 1)
      let p3 := allocArr h4 ((getArr h4 p1.2).drop 1)
      lockAllHeap fuel p3.1 p3.2


/-- Three calls on one lock named "db": call 0 acquires directly
(instant task returning 10), call 1 waits with a 5 ms timeout (task
would return 11), call 2 waits with timeout 0, i.e. indefinitely (task
would return 12). -/
def exInit : LockSys :=
  { name := "db", locked := false, queue := [],
    threads := [.idle ⟨0, .ok 10⟩ 0, .idle ⟨0, .ok 11⟩ 5, .idle ⟨0, .ok 12⟩ 0],
    now := 0 }

/-- Calls 0, 1, 2 start; 5 ms pass; call 1's timer fires. -/
def exPreScript : List Ev :=
  [.call 0, .call 1, .call 2, .tick, .tick, .tick, .tick, .tick, .fire 1]

/-- The state just before the holder releases: call 1 timed out but its
queue entry is still there, ahead of the live waiter 2. -/
def exMid : LockSys :=
  (runScript exInit exPreScript).getD exInit

/-- The holder's release runs after the timeout. -/
def exScript : List Ev := exPreScript ++ [.finish 0]

/-- The state after the holder released into the stale queue. -/
def exFinal : LockSys :=
  (runScript exInit exScript).getD exInit

/-- One call whose task throws error 7 on a lock named "L". -/
def exErrInit : LockSys :=
  { name := "L", locked := false, queue := [],
    threads := [.idle ⟨0, .err 7⟩ 0], now := 0 }

/-- The failing task is about to run its release step. -/
def exErrMid : LockSys :=
  (runScript exErrInit [.call 0]).getD exErrInit

/-- After the failing task's release. -/
def exErrFinal : LockSys :=
  (doFinish exErrMid 0).getD exErrInit

/-- Three calls with task durations 1, 3 and 0 steps: the later-enqueued
call 2 has the shortest body. -/
def c4Init : LockSys :=
  { name := "q", locked := false, queue := [],
    threads := [.idle ⟨1, .ok 0⟩ 0, .idle ⟨3, .ok 1⟩ 0, .idle ⟨0, .ok 2⟩ 0],
    now := 0 }

/-- All three calls start, then each task runs to completion in turn. -/
def c4Script : List Ev :=
  [.call 0, .call 1, .call 2, .work 0, .finish 0,
   .work 1, .work 1, .work 1, .finish 1, .finish 2]

def c4Final : LockSys :=
  (runScript c4Init c4Script).getD c4Init

/-- Call 1 enqueued with a 5 ms timer, 5 ms passed, timer not yet
fired: the timeout transition is enabled. -/
def exOver : LockSys :=
  (runScript exInit [.call 0, .call 1, .tick, .tick, .tick, .tick, .tick]).getD exInit


/-- The holder's task about to release into a queue holding one live
waiter. -/
def c3W : LockSys := (runScript c4Init [.call 0, .call 1, .work 0]).getD c4Init

/-- After that release: the live head waiter became the holder. -/
def c3WFin : LockSys := (doFinish c3W 0).getD c4Init

/-- A JavaScript number denoting a non-negative integer. -/
def isNonNegIntNum (x : JSNum) : Prop := ∃ n : Nat, x = .fin (n : ℚ)

theorem get?_set_self {α : Type} {l : List α} {u : Nat} {p q : α} (h : l.get? u = some q) :
    (l.set u p).get? u = some p := by
  rw [List.get?_set_eq, h]; rfl

theorem phaseA_le_one (p : Phase) : phaseA p ≤ 1 := by
  cases p with
  | done r => cases r <;> simp [phaseA]
  | _ => simp [phaseA]

theorem phaseR_le_one (p : Phase) : phaseR p ≤ 1 := by
  cases p with
  | done r => cases r <;> simp [phaseR]
  | _ => simp [phaseR]

theorem phaseA?_le_one (p : Option Phase) : phaseA? p ≤ 1 := by
  cases p with
  | none => simp [phaseA?]
  | some p => simp [phaseA?, phaseA_le_one]

theorem phaseR?_le_one (p : Option Phase) : phaseR? p ≤ 1 := by
  cases p with
  | none => simp [phaseR?]
  | some p => simp [phaseR?, phaseR_le_one]

theorem acq_call (s s' : LockSys) (u : Nat) (h : doCall s u = some s') (t : Nat) :
    phaseA? (getPhase s' t) = phaseA? (getPhase s t) + (callAcquires s u).count t := by
  unfold doCall at h
  unfold callAcquires
  split at h
  case h_2 => exact absurd h (by simp)
  case h_1 sp tout hu =>
    split at h <;> cases h <;> rename_i hl
    · by_cases ht : u = t
      · subst ht
        simp only [getPhase] at hu ⊢
        rw [get?_set_self hu, hu]
        simp [phaseA?, phaseA, hl]
      · simp only [getPhase] at hu ⊢
        rw [List.get?_set_ne _ _ ht]
        simp [hl]
    · by_cases ht : u = t
      · subst ht
        simp only [getPhase] at hu ⊢
        rw [get?_set_self hu, hu]
        simp [phaseA?, phaseA, hl]
      · simp only [getPhase] at hu ⊢
        rw [List.get?_set_ne _ _ ht]
        simp [hl, ht, List.count_cons]

theorem acq_work (s s' : LockSys) (u : Nat) (h : doWork s u = some s') (t : Nat) :
    phaseA? (getPhase s' t) = phaseA? (getPhase s t) := by
  unfold doWork at h
  split at h
  case h_2 => exact absurd h (by simp)
  case h_1 k out hu =>
    cases h
    by_cases ht : u = t
    · subst ht
      simp only [getPhase, setPhase] at hu ⊢
      rw [get?_set_self hu, hu]
      simp [phaseA?, phaseA]
    · simp only [getPhase, setPhase] at hu ⊢
      rw [List.get?_set_ne _ _ ht]

theorem acq_fire (s s' : LockSys) (u : Nat) (h : doFire s u = some s') (t : Nat) :
    phaseA? (getPhase s' t) = phaseA? (getPhase s t) := by
  unfold doFire at h
  split at h
  case h_2 => exact absurd h (by simp)
  case h_1 sp tout enqAt hu =>
    split at h
    · cases h
      by_cases ht : u = t
      · subst ht
        simp only [getPhase, setPhase] at hu ⊢
        rw [get?_set_self hu, hu]
        simp [phaseA?, phaseA]
      · simp only [getPhase, setPhase] at hu ⊢
        rw [List.get?_set_ne _ _ ht]
    · exact absurd h (by simp)

theorem acq_finish (s s' : LockSys) (u : Nat) (h : doFinish s u = some s') (t : Nat) :
    phaseA? (getPhase s' t) = phaseA? (getPhase s t) + (finishGrants s u).count t := by
  unfold doFinish at h
  unfold finishGrants
  split at h
  case h_2 => exact absurd h (by simp)
  case h_1 out hu =>
    split at h
    · -- queue empty
      cases h
      simp only [List.count_nil]
      by_cases ht : u = t
      · subst ht
        simp only [getPhase] at hu ⊢
        rw [get?_set_self hu, hu]
        cases out <;> simp [phaseA?, phaseA, resultOf]
      · simp only [getPhase] at hu ⊢
        rw [List.get?_set_ne _ _ ht]
        simp
    · -- queue w :: rest
      rename_i w rest hq
      split at h
      · -- head still waiting: granted
        rename_i sp tw ew hw
        cases h
        have huw : u ≠ w := by
          intro he
          rw [← he, get?_set_self hu] at hw
          exact absurd hw (by simp)
        have hgw : getPhase s w = some (.waiting sp tw ew) := by
          simp only [getPhase]
          rw [List.get?_set_ne _ _ huw] at hw
          exact hw
        rw [hgw]
        by_cases htw : w = t
        · subst htw
          simp only [getPhase]
          rw [get?_set_self hw]
          simp only [getPhase] at hgw
          rw [hgw]
          simp [phaseA?, phaseA, List.count_cons]
        · by_cases ht : u = t
          · subst ht
            simp only [getPhase] at hu ⊢
            rw [List.get?_set_ne _ _ htw, get?_set_self hu, hu]
            cases out <;> simp [phaseA?, phaseA, resultOf, List.count_cons, htw]
          · simp only [getPhase]
            rw [List.get?_set_ne _ _ htw, List.get?_set_ne _ _ ht]
            simp [List.count_cons, htw]
      · -- head stale: nobody granted
        rename_i hw
        cases h
        have hcount : (match getPhase s w with
            | some (.waiting _ _ _) => [w]
            | _ => ([] : List Nat)) = [] := by
          by_cases huw : u = w
          · rw [← huw, hu]
          · have hsw : (s.threads.set u (Phase.done (resultOf out))).get? w =
                s.threads.get? w := List.get?_set_ne _ _ huw
            rcases hx : getPhase s w with _ | p
            · rfl
            · cases p with
              | waiting sp tw ew =>
                exfalso
                refine hw sp tw ew ?_
                rw [hsw]
                simpa [getPhase] using hx
              | idle a b => rfl
              | running a b => rfl
              | done r => rfl
        rw [hcount]
        simp only [List.count_nil, Nat.add_zero]
        by_cases ht : u = t
        · subst ht
          simp only [getPhase] at hu ⊢
          rw [get?_set_self hu, hu]
          cases out <;> simp [phaseA?, phaseA, resultOf]
        · simp only [getPhase]
          rw [List.get?_set_ne _ _ ht]

theorem rel_call (s s' : LockSys) (u : Nat) (h : doCall s u = some s') (t : Nat) :
    phaseR? (getPhase s' t) = phaseR? (getPhase s t) := by
  unfold doCall at h
  split at h
  case h_2 => exact absurd h (by simp)
  case h_1 sp tout hu =>
    split at h <;> cases h
    all_goals by_cases ht : u = t
    · subst ht
      simp only [getPhase] at hu ⊢
      rw [get?_set_self hu, hu]
      simp [phaseR?, phaseR]
    · simp only [getPhase]
      rw [List.get?_set_ne _ _ ht]
    · subst ht
      simp only [getPhase] at hu ⊢
      rw [get?_set_self hu, hu]
      simp [phaseR?, phaseR]
    · simp only [getPhase]
      rw [List.get?_set_ne _ _ ht]

theorem rel_work (s s' : LockSys) (u : Nat) (h : doWork s u = some s') (t : Nat) :
    phaseR? (getPhase s' t) = phaseR? (getPhase s t) := by
  unfold doWork at h
  split at h
  case h_2 => exact absurd h (by simp)
  case h_1 k out hu =>
    cases h
    by_cases ht : u = t
    · subst ht
      simp only [getPhase, setPhase] at hu ⊢
      rw [get?_set_self hu, hu]
      simp [phaseR?, phaseR]
    · simp only [getPhase, setPhase]
      rw [List.get?_set_ne _ _ ht]

theorem rel_fire (s s' : LockSys) (u : Nat) (h : doFire s u = some s') (t : Nat) :
    phaseR? (getPhase s' t) = phaseR? (getPhase s t) := by
  unfold doFire at h
  split at h
  case h_2 => exact absurd h (by simp)
  case h_1 sp tout enqAt hu =>
    split at h
    · cases h
      by_cases ht : u = t
      · subst ht
        simp only [getPhase, setPhase] at hu ⊢
        rw [get?_set_self hu, hu]
        simp [phaseR?, phaseR]
      · simp only [getPhase, setPhase]
        rw [List.get?_set_ne _ _ ht]
    · exact absurd h (by simp)

theorem rel_finish (s s' : LockSys) (u : Nat) (h : doFinish s u = some s') (t : Nat) :
    phaseR? (getPhase s' t) = phaseR? (getPhase s t) + (releasedOf s (.finish u)).count t := by
  have hrel : releasedOf s (.finish u) = [u] := by
    unfold doFinish at h
    split at h
    case h_2 => exact absurd h (by simp)
    case h_1 out hu =>
      simp only [releasedOf]
      rw [hu]
  rw [hrel]
  unfold doFinish at h
  split at h
  case h_2 => exact absurd h (by simp)
  case h_1 out hu =>
    split at h
    · -- queue empty
      cases h
      by_cases ht : u = t
      · subst ht
        simp only [getPhase] at hu ⊢
        rw [get?_set_self hu, hu]
        cases out <;> simp [phaseR?, phaseR, resultOf, List.count_cons]
      · simp only [getPhase]
        rw [List.get?_set_ne _ _ ht]
        simp [List.count_cons, ht]
    · rename_i w rest hq
      split at h
      · -- granted head
        rename_i sp tw ew hw
        cases h
        have huw : u ≠ w := by
          intro he
          rw [← he, get?_set_self hu] at hw
          exact absurd hw (by simp)
        by_cases htw : w = t
        · subst htw
          have hgw : s.threads.get? w = some (Phase.waiting sp tw ew) := by
            rw [List.get?_set_ne _ _ huw] at hw
            exact hw
          simp only [getPhase]
          rw [get?_set_self hw, hgw]
          simp [phaseR?, phaseR, List.count_cons, Ne.symm huw]
        · by_cases ht : u = t
          · subst ht
            simp only [getPhase] at hu ⊢
            rw [List.get?_set_ne _ _ htw, get?_set_self hu, hu]
            cases out <;> simp [phaseR?, phaseR, resultOf, List.count_cons]
          · simp only [getPhase]
            rw [List.get?_set_ne _ _ htw, List.get?_set_ne _ _ ht]
            simp [List.count_cons, ht]
      · -- stale head
        cases h
        by_cases ht : u = t
        · subst ht
          simp only [getPhase] at hu ⊢
          rw [get?_set_self hu, hu]
          cases out <;> simp [phaseR?, phaseR, resultOf, List.count_cons]
        · simp only [getPhase]
          rw [List.get?_set_ne _ _ ht]
          simp [List.count_cons, ht]

theorem step_acquired (s s' : LockSys) (e : Ev) (h : stepFn s e = some s') (t : Nat) :
    phaseA? (getPhase s' t) = phaseA? (getPhase s t) + (acquiredOf s e).count t := by
  cases e with
  | call u => exact acq_call s s' u h t
  | work u => rw [show acquiredOf s (.work u) = [] from rfl]; simpa using acq_work s s' u h t
  | finish u => exact acq_finish s s' u h t
  | fire u => rw [show acquiredOf s (.fire u) = [] from rfl]; simpa using acq_fire s s' u h t
  | tick => cases h; simp [acquiredOf, getPhase]

theorem step_released (s s' : LockSys) (e : Ev) (h : stepFn s e = some s') (t : Nat) :
    phaseR? (getPhase s' t) = phaseR? (getPhase s t) + (releasedOf s e).count t := by
  cases e with
  | call u => rw [show releasedOf s (.call u) = [] from rfl]; simpa using rel_call s s' u h t
  | work u => rw [show releasedOf s (.work u) = [] from rfl]; simpa using rel_work s s' u h t
  | finish u => exact rel_finish s s' u h t
  | fire u => rw [show releasedOf s (.fire u) = [] from rfl]; simpa using rel_fire s s' u h t
  | tick => cases h; simp [releasedOf, getPhase]

theorem run_acquired : ∀ (tr : List Ev) (s s' : LockSys), runScript s tr = some s' → ∀ t,
    phaseA? (getPhase s' t) = phaseA? (getPhase s t) + (traceOf acquiredOf s tr).count t := by
  intro tr
  induction tr with
  | nil => intro s s' h t; cases h; simp [traceOf]
  | cons e es ih =>
    intro s s' h t
    unfold runScript at h
    rcases hs : stepFn s e with _ | s1
    · rw [hs] at h; exact absurd h (by simp)
    · rw [hs] at h
      have h1 := step_acquired s s1 e hs t
      have h2 := ih s1 s' h t
      unfold traceOf
      rw [hs, List.count_append]
      omega

theorem run_released : ∀ (tr : List Ev) (s s' : LockSys), runScript s tr = some s' → ∀ t,
    phaseR? (getPhase s' t) = phaseR? (getPhase s t) + (traceOf releasedOf s tr).count t := by
  intro tr
  induction tr with
  | nil => intro s s' h t; cases h; simp [traceOf]
  | cons e es ih =>
    intro s s' h t
    unfold runScript at h
    rcases hs : stepFn s e with _ | s1
    · rw [hs] at h; exact absurd h (by simp)
    · rw [hs] at h
      have h1 := step_released s s1 e hs t
      have h2 := ih s1 s' h t
      unfold traceOf
      rw [hs, List.count_append]
      omega

theorem init_phaseA (s : LockSys) (hi : InitState s) (t : Nat) :
    phaseA? (getPhase s t) = 0 := by
  rcases hx : getPhase s t with _ | p
  · rfl
  · have hm : p ∈ s.threads := List.get?_mem hx
    have := (List.all_eq_true.mp hi.2.2) p hm
    cases p <;> simp_all [Phase.isIdle, phaseA?, phaseA]

theorem init_phaseR (s : LockSys) (hi : InitState s) (t : Nat) :
    phaseR? (getPhase s t) = 0 := by
  rcases hx : getPhase s t with _ | p
  · rfl
  · have hm : p ∈ s.threads := List.get?_mem hx
    have := (List.all_eq_true.mp hi.2.2) p hm
    cases p <;> simp_all [Phase.isIdle, phaseR?, phaseR]

/-- C5: For every `lock.lock` call, the release step (the `finally` of
lines 140-147) runs exactly once iff the caller actually acquired the
lock: over any run from an initial state, each call acquires at most
once and releases at most once, and its final phase ties the two counts
together — a call that completed its task has acquired and released
exactly once, while a call still idle or waiting, or one that failed
with `LockTimeout`, has released (and acquired) zero times.  A call
rejected by validation throws before any mutation: the lock state is
returned unchanged and the caller is never enqueued (hence can never
release). -/
theorem c5_release_iff_acquired :
    (∀ (s₀ : LockSys) (tr : List Ev) (s' : LockSys) (t : Nat),
      InitState s₀ → runScript s₀ tr = some s' →
      (traceOf acquiredOf s₀ tr).count t ≤ 1 ∧
      (traceOf releasedOf s₀ tr).count t ≤ 1 ∧
      callLifecycle (getPhase s' t) ((traceOf acquiredOf s₀ tr).count t)
        ((traceOf releasedOf s₀ tr).count t)) ∧
    (∀ (st : LockState) (t : Nat) (task : TaskArg) (tout : TimeoutArg) (e : VErr),
      (lockEnter st t task tout).2.1 = some e →
      (lockEnter st t task tout).1 = st ∧ (lockEnter st t task tout).2.2 = false) := by
  constructor
  · intro s₀ tr s' t hi hrun
    have ha := run_acquired tr s₀ s' hrun t
    have hr := run_released tr s₀ s' hrun t
    rw [init_phaseA s₀ hi t] at ha
    rw [init_phaseR s₀ hi t] at hr
    have hA : (traceOf acquiredOf s₀ tr).count t = phaseA? (getPhase s' t) := by omega
    have hR : (traceOf releasedOf s₀ tr).count t = phaseR? (getPhase s' t) := by omega
    refine ⟨?_, ?_, ?_⟩
    · rw [hA]; exact phaseA?_le_one _
    · rw [hR]; exact phaseR?_le_one _
    · rw [hA, hR]
      cases hgp : getPhase s' t with
      | none => simp [callLifecycle, phaseA?, phaseR?]
      | some p =>
        cases p with
        | done r =>
          cases r <;> simp [callLifecycle, phaseA?, phaseA, phaseR?, phaseR]
        | idle a b => simp [callLifecycle, phaseA?, phaseA, phaseR?, phaseR]
        | waiting a b c => simp [callLifecycle, phaseA?, phaseA, phaseR?, phaseR]
        | running a b => simp [callLifecycle, phaseA?, phaseA, phaseR?, phaseR]
  · intro st t task tout e h
    rcases hv : lockValidate task tout with _ | e'
    · simp only [lockEnter, hv] at h
      split at h <;> simp at h
    · simp [lockEnter, hv]

theorem c5_release_iff_acquired_witness :
    ((traceOf acquiredOf exInit exScript).count 1 ≤ 1 ∧
     (traceOf releasedOf exInit exScript).count 1 ≤ 1 ∧
     callLifecycle (getPhase exFinal 1) ((traceOf acquiredOf exInit exScript).count 1)
       ((traceOf releasedOf exInit exScript).count 1)) ∧
    ((lockEnter ⟨false, []⟩ 0 .notFn (.num (.fin 0))).1 = ⟨false, []⟩ ∧
     (lockEnter ⟨false, []⟩ 0 .notFn (.num (.fin 0))).2.2 = false) :=
  ⟨c5_release_iff_acquired.1 exInit exScript exFinal 1 (by decide) (by decide),
   c5_release_iff_acquired.2 ⟨false, []⟩ 0 .notFn (.num (.fin 0)) .typeErr (by decide)⟩

theorem any_isWaiting_iff (p : Option Phase) :
    p.any Phase.isWaiting = true ↔ ∃ sp tw ew, p = some (.waiting sp tw ew) := by
  cases p with
  | none => simp [Option.any]
  | some q => cases q <;> simp [Option.any, Phase.isWaiting]

theorem step_queue_eq (s s' : LockSys) (e : Ev)
    (hq1 : ∀ t ∈ s.queue, (getPhase s t).any Phase.isWaiting = true)
    (hq2 : s.queue.Nodup) (hnf : e.isFire = false) (h : stepFn s e = some s') :
    grantedOf s e ++ s'.queue = s.queue ++ enqueuedOf s e ∧
    (∀ t ∈ s'.queue, (getPhase s' t).any Phase.isWaiting = true) ∧ s'.queue.Nodup := by
  cases e with
  | tick =>
    cases h
    refine ⟨by simp [grantedOf, enqueuedOf], ?_, hq2⟩
    intro t ht
    exact hq1 t ht
  | fire u => exact absurd hnf (by simp [Ev.isFire])
  | work u =>
    simp only [stepFn] at h
    have hwu : ∀ t ∈ s.queue, t ≠ u := by
      intro t ht he
      subst he
      have := (any_isWaiting_iff _).mp (hq1 t ht)
      obtain ⟨sp, tw, ew, hx⟩ := this
      unfold doWork at h
      rw [hx] at h
      exact absurd h (by simp)
    unfold doWork at h
    split at h
    case h_2 => exact absurd h (by simp)
    case h_1 k out hu =>
      cases h
      refine ⟨by simp [grantedOf, enqueuedOf, setPhase], ?_, hq2⟩
      intro t ht
      have hne : u ≠ t := fun he => hwu t ht he.symm
      simp only [getPhase, setPhase]
      rw [List.get?_set_ne _ _ hne]
      exact hq1 t ht
  | call u =>
    simp only [stepFn] at h
    unfold doCall at h
    split at h
    case h_2 => exact absurd h (by simp)
    case h_1 sp tout hu =>
      have hqu : ∀ t ∈ s.queue, t ≠ u := by
        intro t ht he
        subst he
        obtain ⟨sp', tw', ew', hx⟩ := (any_isWaiting_iff _).mp (hq1 t ht)
        rw [hx] at hu
        exact absurd hu (by simp)
      split at h <;> cases h <;> rename_i hl
      · -- locked: enqueue u
        refine ⟨?_, ?_, ?_⟩
        · simp [grantedOf, enqueuedOf, callAcquires, hu, hl]
        · intro t ht
          simp only [getPhase]
          rcases List.mem_append.mp ht with htq | htu
          · have hne : u ≠ t := fun he => hqu t htq he.symm
            rw [List.get?_set_ne _ _ hne]
            exact hq1 t htq
          · have : t = u := by simpa using htu
            subst this
            rw [get?_set_self hu]
            simp [Option.any, Phase.isWaiting]
        · rw [List.nodup_append]
          refine ⟨hq2, List.nodup_singleton u, ?_⟩
          intro t ht htu
          have : t = u := by simpa using htu
          exact hqu t ht this
      · -- free: acquire directly
        refine ⟨?_, ?_, ?_⟩
        · simp [grantedOf, enqueuedOf, hu, hl]
        · intro t ht
          have hne : u ≠ t := fun he => hqu t ht he.symm
          simp only [getPhase]
          rw [List.get?_set_ne _ _ hne]
          exact hq1 t ht
        · exact hq2
  | finish u =>
    simp only [stepFn] at h
    unfold doFinish at h
    split at h
    case h_2 => exact absurd h (by simp)
    case h_1 out hu =>
      have hqu : ∀ t ∈ s.queue, t ≠ u := by
        intro t ht he
        subst he
        obtain ⟨sp', tw', ew', hx⟩ := (any_isWaiting_iff _).mp (hq1 t ht)
        rw [hx] at hu
        exact absurd hu (by simp)
      split at h
      · -- queue empty
        rename_i hqe
        cases h
        refine ⟨?_, by simp, List.nodup_nil⟩
        simp [grantedOf, enqueuedOf, finishGrants, hu, hqe]
      · -- queue w :: rest
        rename_i w rest hqe
        have hwq : w ∈ s.queue := by rw [hqe]; exact List.mem_cons_self w rest
        have huw : u ≠ w := fun he => hqu w hwq he.symm
        obtain ⟨spw, tww, eww, hxw⟩ := (any_isWaiting_iff _).mp (hq1 w hwq)
        have hxw' : (s.threads.set u (Phase.done (resultOf out))).get? w =
            some (Phase.waiting spw tww eww) := by
          rw [List.get?_set_ne _ _ huw]
          exact hxw
        split at h
        · rename_i sp' tw' ew' hw
          cases h
          rw [hxw'] at hw
          cases hw
          have hrest : rest.Nodup := by
            rw [hqe] at hq2
            exact hq2.of_cons
          have hwrest : w ∉ rest := by
            rw [hqe] at hq2
            exact (List.nodup_cons.mp hq2).1
          refine ⟨?_, ?_, hrest⟩
          · simp [grantedOf, enqueuedOf, finishGrants, hu, hqe, hxw]
          · intro t ht
            have htq : t ∈ s.queue := by rw [hqe]; exact List.mem_cons_of_mem w ht
            have hnu : u ≠ t := fun he => hqu t htq he.symm
            have hnw : w ≠ t := fun he => hwrest (he ▸ ht)
            simp only [getPhase]
            rw [List.get?_set_ne _ _ hnw, List.get?_set_ne _ _ hnu]
            exact hq1 t htq
        · rename_i hnw
          exact absurd hxw' (by intro hc; exact hnw spw tww eww hc)

theorem fifo_run : ∀ (tr : List Ev) (s s' : LockSys),
    (∀ t ∈ s.queue, (getPhase s t).any Phase.isWaiting = true) → s.queue.Nodup →
    tr.all (fun e => !e.isFire) = true → runScript s tr = some s' →
    traceOf grantedOf s tr ++ s'.queue = s.queue ++ traceOf enqueuedOf s tr := by
  intro tr
  induction tr with
  | nil =>
    intro s s' _ _ _ h
    cases h
    simp [traceOf]
  | cons e es ih =>
    intro s s' hq1 hq2 hnf hrun
    have hnfe : e.isFire = false := by
      have := (List.all_eq_true.mp hnf) e (List.mem_cons_self e es)
      simpa using this
    have hnfes : es.all (fun x => !x.isFire) = true := by
      rw [List.all_eq_true] at hnf ⊢
      intro x hx
      exact hnf x (List.mem_cons_of_mem e hx)
    unfold runScript at hrun
    rcases hs : stepFn s e with _ | s1
    · rw [hs] at hrun; exact absurd hrun (by simp)
    · rw [hs] at hrun
      obtain ⟨heq, hi1, hi2⟩ := step_queue_eq s s1 e hq1 hq2 hnfe hs
      have hih := ih s1 s' hi1 hi2 hnfes hrun
      unfold traceOf
      rw [hs]
      calc (grantedOf s e ++ traceOf grantedOf s1 es) ++ s'.queue
          = grantedOf s e ++ (traceOf grantedOf s1 es ++ s'.queue) := by
            rw [List.append_assoc]
        _ = grantedOf s e ++ (s1.queue ++ traceOf enqueuedOf s1 es) := by rw [hih]
        _ = (grantedOf s e ++ s1.queue) ++ traceOf enqueuedOf s1 es := by
            rw [List.append_assoc]
        _ = (s.queue ++ enqueuedOf s e) ++ traceOf enqueuedOf s1 es := by rw [heq]
        _ = s.queue ++ (enqueuedOf s e ++ traceOf enqueuedOf s1 es) := by
            rw [List.append_assoc]

/-- C4: For every sequence of `lock.lock` calls on the same `Lock` that
enqueue as waiters and do not time out (no timer fires in the run), the
granted-from-queue order is exactly the enqueue order: the granted ids
followed by the still-queued ids equal the enqueued ids, in order.  The
task bodies' durations (`TaskSpec.steps`) are universally quantified, so
a later-enqueued call with a shorter body never overtakes an
earlier-enqueued one with a longer body. -/
theorem c4_fifo_grant_order :
    ∀ (s₀ : LockSys) (tr : List Ev) (s' : LockSys),
      InitState s₀ → tr.all (fun e => !e.isFire) = true → runScript s₀ tr = some s' →
      traceOf grantedOf s₀ tr ++ s'.queue = traceOf enqueuedOf s₀ tr := by
  intro s₀ tr s' hi hnf hrun
  have h := fifo_run tr s₀ s'
    (by intro t ht; rw [hi.2.1] at ht; exact absurd ht (List.not_mem_nil t))
    (by rw [hi.2.1]; exact List.nodup_nil) hnf hrun
  rw [hi.2.1] at h
  simpa using h

theorem c4_fifo_grant_order_witness :
    traceOf grantedOf c4Init c4Script ++ c4Final.queue = traceOf enqueuedOf c4Init c4Script :=
  c4_fifo_grant_order c4Init c4Script c4Final (by decide) (by decide) (by decide)

theorem countP_set {α : Type} (p : α → Bool) :
    ∀ (l : List α) (u : Nat) (a b : α), l.get? u = some b →
    (l.set u a).countP p + (if p b then 1 else 0) = l.countP p + (if p a then 1 else 0) := by
  intro l
  induction l with
  | nil => intro u a b h; simp at h
  | cons x xs ih =>
    intro u a b h
    cases u with
    | zero =>
      simp at h
      subst h
      simp [List.set, List.countP_cons]
      omega
    | succ n =>
      simp only [List.set, List.countP_cons]
      have := ih n a b h
      omega

/-- Number of calls currently executing their task body. -/
def runningCount (s : LockSys) : Nat := s.threads.countP Phase.isRunning

/-- The state invariant behind C3: a free lock has no queued waiter and
no running task, and at most one call runs at any time. -/
def coherent (s : LockSys) : Prop :=
  (s.locked = false → s.queue = [] ∧ runningCount s = 0) ∧ runningCount s ≤ 1

theorem runningCount_pos (s : LockSys) (u : Nat) (k : Nat) (out : TaskOutcome)
    (hu : getPhase s u = some (.running k out)) : 0 < runningCount s := by
  refine List.countP_pos_iff.mpr ⟨Phase.running k out, List.get?_mem hu, rfl⟩

theorem coherent_step (s s' : LockSys) (e : Ev) (hc : coherent s) (h : stepFn s e = some s') :
    coherent s' := by
  obtain ⟨hc1, hc2⟩ := hc
  cases e with
  | tick => cases h; exact ⟨hc1, hc2⟩
  | fire u =>
    simp only [stepFn] at h
    unfold doFire at h
    split at h
    case h_2 => exact absurd h (by simp)
    case h_1 sp tout enqAt hu =>
      split at h
      · cases h
        have hcs := countP_set Phase.isRunning s.threads u
          (Phase.done (CallResult.lockTimeout (timeoutMessage s.name tout)))
          (Phase.waiting sp tout enqAt) hu
        simp [Phase.isRunning] at hcs
        constructor
        · intro hl
          obtain ⟨hq, hr⟩ := hc1 hl
          refine ⟨hq, ?_⟩
          simp only [runningCount, setPhase] at hr ⊢
          omega
        · simp only [runningCount, setPhase] at hc2 ⊢
          omega
      · exact absurd h (by simp)
  | work u =>
    simp only [stepFn] at h
    unfold doWork at h
    split at h
    case h_2 => exact absurd h (by simp)
    case h_1 k out hu =>
      cases h
      have hpos := runningCount_pos s u (k + 1) out hu
      have hcs := countP_set Phase.isRunning s.threads u
        (Phase.running k out) (Phase.running (k + 1) out) hu
      simp [Phase.isRunning] at hcs
      constructor
      · intro hl
        obtain ⟨hq, hr⟩ := hc1 hl
        exact absurd hr (by omega)
      · simp only [runningCount, setPhase] at hc2 ⊢
        omega
  | call u =>
    simp only [stepFn] at h
    unfold doCall at h
    split at h
    case h_2 => exact absurd h (by simp)
    case h_1 sp tout hu =>
      split at h <;> cases h <;> rename_i hl
      · -- lock held: enqueue
        have hcs := countP_set Phase.isRunning s.threads u
          (Phase.waiting sp tout s.now) (Phase.idle sp tout) hu
        simp [Phase.isRunning] at hcs
        constructor
        · intro hl'
          have hx : s.locked = false := hl'
          rw [hl] at hx
          simp at hx
        · simp only [runningCount] at hc2 ⊢
          omega
      · -- lock free: acquire
        have hl' : s.locked = false := by simpa using hl
        obtain ⟨hq, hr⟩ := hc1 hl'
        have hcs := countP_set Phase.isRunning s.threads u
          (Phase.running sp.steps sp.outcome) (Phase.idle sp tout) hu
        simp [Phase.isRunning] at hcs
        constructor
        · intro hl''
          exact absurd hl'' (by simp)
        · simp only [runningCount] at hr ⊢
          omega
  | finish u =>
    simp only [stepFn] at h
    unfold doFinish at h
    split at h
    case h_2 => exact absurd h (by simp)
    case h_1 out hu =>
      have hpos := runningCount_pos s u 0 out hu
      have hcs := countP_set Phase.isRunning s.threads u
        (Phase.done (resultOf out)) (Phase.running 0 out) hu
      simp [Phase.isRunning] at hcs
      split at h
      · -- queue empty
        cases h
        constructor
        · intro _
          refine ⟨rfl, ?_⟩
          simp only [runningCount] at hc2 ⊢
          omega
        · simp only [runningCount] at hc2 ⊢
          omega
      · -- queue nonempty
        rename_i w rest hqe
        have hlock : s.locked = true := by
          by_contra hcon
          have := (hc1 (by simpa using hcon)).1
          rw [hqe] at this
          exact absurd this (by simp)
        split at h
        · rename_i sp' tw' ew' hw
          cases h
          have hcs2 := countP_set Phase.isRunning (s.threads.set u (Phase.done (resultOf out))) w
            (Phase.running sp'.steps sp'.outcome) (Phase.waiting sp' tw' ew') hw
          simp [Phase.isRunning] at hcs2
          constructor
          · intro hl'
            have hx : s.locked = false := hl'
            rw [hlock] at hx
            simp at hx
          · simp only [runningCount] at hc2 ⊢
            omega
        · cases h
          constructor
          · intro hl'
            have hx : s.locked = false := hl'
            rw [hlock] at hx
            simp at hx
          · simp only [runningCount] at hc2 ⊢
            omega

theorem coherent_run : ∀ (tr : List Ev) (s s' : LockSys),
    coherent s → runScript s tr = some s' → coherent s' := by
  intro tr
  induction tr with
  | nil => intro s s' hc h; cases h; exact hc
  | cons e es ih =>
    intro s s' hc h
    unfold runScript at h
    rcases hs : stepFn s e with _ | s1
    · rw [hs] at h; exact absurd h (by simp)
    · rw [hs] at h
      exact ih s1 s' (coherent_step s s1 e hc hs) h

theorem coherent_init (s : LockSys) (hi : InitState s) : coherent s := by
  have hz : runningCount s = 0 := by
    simp only [runningCount]
    rw [List.countP_eq_zero]
    intro p hp
    have := (List.all_eq_true.mp hi.2.2) p hp
    cases p <;> simp_all [Phase.isIdle, Phase.isRunning]
  exact ⟨fun _ => ⟨hi.2.1, hz⟩, by omega⟩

/-- C3 (amended): in every reachable state, a free lock never coexists
with a queued waiter; a release with an empty queue clears the flag and
leaves the queue empty; a release with a non-empty queue dequeues
exactly the earliest entry, keeps `locked` true through the step (the
lock is already `locked = true` when the queue is non-empty), and makes
the dequeued waiter the holder provided that waiter is still waiting
(i.e. has not timed out). -/
theorem c3_no_free_lock_with_waiters :
    ∀ (s₀ : LockSys) (tr : List Ev) (s' : LockSys),
      InitState s₀ → runScript s₀ tr = some s' →
      (¬(s'.locked = false ∧ s'.queue ≠ [])) ∧
      (∀ u s'', doFinish s' u = some s'' → s'.queue = [] →
        s''.locked = false ∧ s''.queue = []) ∧
      (∀ u s'', doFinish s' u = some s'' → s'.queue ≠ [] →
        s''.locked = true ∧ s'.locked = true ∧ s''.queue = s'.queue.tail ∧
        (∀ w sp tw ew, s'.queue.head? = some w →
          getPhase s' w = some (.waiting sp tw ew) →
          getPhase s'' w = some (.running sp.steps sp.outcome))) := by
  intro s₀ tr s' hi hrun
  have hcoh := coherent_run tr s₀ s' (coherent_init s₀ hi) hrun
  refine ⟨?_, ?_, ?_⟩
  · rintro ⟨hl, hq⟩
    exact hq (hcoh.1 hl).1
  · intro u s'' hf hq
    unfold doFinish at hf
    split at hf
    case h_2 => exact absurd hf (by simp)
    case h_1 out hu =>
      split at hf
      · cases hf
        exact ⟨rfl, rfl⟩
      · rename_i w rest hqe
        rw [hq] at hqe
        exact absurd hqe.symm (by simp)
  · intro u s'' hf hqne
    have hlock : s'.locked = true := by
      by_contra hcon
      exact hqne (hcoh.1 (by simpa using hcon)).1
    unfold doFinish at hf
    split at hf
    case h_2 => exact absurd hf (by simp)
    case h_1 out hu =>
      split at hf
      · rename_i hqe
        exact absurd hqe hqne
      · rename_i w rest hqe
        split at hf
        · rename_i sp' tw' ew' hw
          cases hf
          refine ⟨hlock, hlock, by rw [hqe]; rfl, ?_⟩
          intro w0 sp tw ew hhead hph
          rw [hqe] at hhead
          have hww : w0 = w := by simpa using hhead.symm
          subst hww
          have huw : u ≠ w0 := by
            intro he
            rw [← he, hu] at hph
            exact absurd hph (by simp)
          rw [List.get?_set_ne _ _ huw] at hw
          simp only [getPhase] at hph
          rw [hph] at hw
          cases hw
          simp only [getPhase]
          rw [get?_set_self (by rw [List.get?_set_ne _ _ huw]; exact hph)]
        · rename_i hnw
          cases hf
          refine ⟨hlock, hlock, by rw [hqe]; rfl, ?_⟩
          intro w0 sp tw ew hhead hph
          rw [hqe] at hhead
          have hww : w0 = w := by simpa using hhead.symm
          subst hww
          have huw : u ≠ w0 := by
            intro he
            rw [← he, hu] at hph
            exact absurd hph (by simp)
          exfalso
          refine hnw sp tw ew ?_
          rw [List.get?_set_ne _ _ huw]
          simpa [getPhase] using hph

theorem c3_no_free_lock_with_waiters_witness :
    c3WFin.locked = true ∧ c3W.locked = true ∧ c3WFin.queue = c3W.queue.tail ∧
    getPhase c3WFin 1 = some (.running 3 (.ok 1)) := by
  have h := c3_no_free_lock_with_waiters c4Init [.call 0, .call 1, .work 0] c3W
    (by decide) (by decide)
  have h3 := h.2.2 0 c3WFin (by decide) (by decide)
  exact ⟨h3.1, h3.2.1, h3.2.2.1, h3.2.2.2 1 ⟨3, .ok 1⟩ 0 0 (by decide) (by decide)⟩

/-- C3 counterexample to the claim as stated: the holder releases while
the earliest-queued entry belongs to a waiter that already timed out.
The stale entry is dequeued but does *not* become the holder: after the
release no call is running at all, although `locked` is still true and
a live waiter (call 2) is still queued. -/
theorem c3_stale_head_counterexample :
    runScript exInit exPreScript = some exMid ∧
    exMid.queue.head? = some 1 ∧
    exMid.locked = true ∧
    doFinish exMid 0 = some exFinal ∧
    exFinal.locked = true ∧
    exFinal.queue = [2] ∧
    getPhase exFinal 1 = some (.done (.lockTimeout (timeoutMessage "db" 5))) ∧
    noRunningB exFinal = true := by decide

theorem all_set {α : Type} (p : α → Bool) :
    ∀ (l : List α) (u : Nat) (a : α), l.all p = true → p a = true → (l.set u a).all p = true := by
  intro l
  induction l with
  | nil => intro u a _ _; simp [List.set]
  | cons x xs ih =>
    intro u a hall hp
    rw [List.all_eq_true] at hall
    cases u with
    | zero =>
      simp only [List.set]
      rw [List.all_eq_true]
      intro y hy
      rcases List.mem_cons.mp hy with h1 | h2
      · subst h1; exact hp
      · exact hall y (List.mem_cons_of_mem x h2)
    | succ n =>
      simp only [List.set]
      rw [List.all_eq_true]
      intro y hy
      rcases List.mem_cons.mp hy with h1 | h2
      · rw [h1]
        exact hall _ (List.mem_cons_self _ _)
      · have hxs : xs.all p = true :=
          List.all_eq_true.mpr (fun z hz => hall z (List.mem_cons_of_mem x hz))
        exact (List.all_eq_true.mp (ih n a hxs hp)) y h2

theorem noRunningB_get (s : LockSys) (u : Nat) (k : Nat) (out : TaskOutcome)
    (hnr : noRunningB s = true) (hu : getPhase s u = some (.running k out)) : False := by
  have := (List.all_eq_true.mp hnr) (Phase.running k out) (List.get?_mem hu)
  simp [Phase.isRunning] at this

/-- In a state that is locked yet has no running call, no event can put
any call at the lock's helm again: the flag stays set, nothing runs, and
every waiter that entered with `timeout = 0` is stuck in `waiting`
forever. -/
theorem deadlock_step (s s' : LockSys) (e : Ev) (hl : s.locked = true)
    (hnr : noRunningB s = true) (h : stepFn s e = some s') :
    s'.locked = true ∧ noRunningB s' = true ∧
    (∀ t sp ea, getPhase s t = some (.waiting sp 0 ea) →
      getPhase s' t = some (.waiting sp 0 ea)) := by
  cases e with
  | tick =>
    cases h
    exact ⟨hl, hnr, fun t sp ea hx => hx⟩
  | work u =>
    simp only [stepFn] at h
    unfold doWork at h
    split at h
    case h_2 => exact absurd h (by simp)
    case h_1 k out hu => exact absurd hu (by intro hc; exact noRunningB_get s u _ _ hnr hc)
  | finish u =>
    simp only [stepFn] at h
    unfold doFinish at h
    split at h
    case h_2 => exact absurd h (by simp)
    case h_1 out hu => exact absurd hu (by intro hc; exact noRunningB_get s u _ _ hnr hc)
  | fire u =>
    simp only [stepFn] at h
    unfold doFire at h
    split at h
    case h_2 => exact absurd h (by simp)
    case h_1 sp tout enqAt hu =>
      split at h
      · rename_i hcond
        cases h
        refine ⟨hl, ?_, ?_⟩
        · simp only [noRunningB, setPhase] at hnr ⊢
          exact all_set _ s.threads u _ hnr (by simp [Phase.isRunning])
        · intro t sp' ea hx
          have hne : u ≠ t := by
            intro he
            subst he
            rw [hu] at hx
            cases hx
            exact hcond.1 rfl
          simp only [getPhase, setPhase] at hx ⊢
          rw [List.get?_set_ne _ _ hne]
          exact hx
      · exact absurd h (by simp)
  | call u =>
    simp only [stepFn] at h
    unfold doCall at h
    split at h
    case h_2 => exact absurd h (by simp)
    case h_1 sp tout hu =>
      split at h <;> cases h <;> rename_i hlb
      · refine ⟨hl, ?_, ?_⟩
        · simp only [noRunningB] at hnr ⊢
          exact all_set _ s.threads u _ hnr (by simp [Phase.isRunning])
        · intro t sp' ea hx
          have hne : u ≠ t := by
            intro he
            subst he
            rw [hu] at hx
            cases hx
          simp only [getPhase] at hx ⊢
          rw [List.get?_set_ne _ _ hne]
          exact hx
      · rw [hl] at hlb
        exact absurd rfl hlb

theorem deadlock_run : ∀ (tr : List Ev) (s s' : LockSys),
    s.locked = true → noRunningB s = true → runScript s tr = some s' →
    s'.locked = true ∧ noRunningB s' = true ∧
    (∀ t sp ea, getPhase s t = some (.waiting sp 0 ea) →
      getPhase s' t = some (.waiting sp 0 ea)) := by
  intro tr
  induction tr with
  | nil =>
    intro s s' hl hnr h
    cases h
    exact ⟨hl, hnr, fun t sp ea hx => hx⟩
  | cons e es ih =>
    intro s s' hl hnr h
    unfold runScript at h
    rcases hs : stepFn s e with _ | s1
    · rw [hs] at h; exact absurd h (by simp)
    · rw [hs] at h
      obtain ⟨hl1, hnr1, hkeep1⟩ := deadlock_step s s1 e hl hnr hs
      obtain ⟨hl2, hnr2, hkeep2⟩ := ih s1 s' hl1 hnr1 h
      exact ⟨hl2, hnr2, fun t sp ea hx => hkeep2 t sp ea (hkeep1 t sp ea hx)⟩

/-- C1 is violated by the code: in the execution `exScript`, call 0
holds the lock, call 1 waits with a 5 ms timer and call 2 waits
indefinitely; call 1 times out (its `TimeoutError` is seen by call 1
alone — call 0 still resolves with its own value), but its `resolve`
stays queued ahead of call 2.  When call 0 releases, the `finally`
block shifts call 1's stale trigger and calls it — a no-op on the
already-rejected promise — so the release is consumed: `locked` stays
true, nobody runs, and in *every* continuation of the execution the
live waiter call 2 remains waiting forever and the lock stays locked. -/
theorem c1_stale_entry_consumes_release :
    exFinal.locked = true ∧
    exFinal.queue = [2] ∧
    getPhase exFinal 0 = some (.done (.value 10)) ∧
    getPhase exFinal 1 = some (.done (.lockTimeout (timeoutMessage "db" 5))) ∧
    noRunningB exFinal = true ∧
    (∀ (tr : List Ev) (s' : LockSys), runScript exFinal tr = some s' →
      s'.locked = true ∧ getPhase s' 2 = some (.waiting ⟨0, .ok 12⟩ 0 0)) := by
  refine ⟨by decide, by decide, by decide, by decide, by decide, ?_⟩
  intro tr s' h
  obtain ⟨hl, _, hkeep⟩ := deadlock_run tr exFinal s' (by decide) (by decide) h
  exact ⟨hl, hkeep 2 ⟨0, .ok 12⟩ 0 (by decide)⟩

theorem c1_stale_entry_consumes_release_witness :
    exFinal.locked = true ∧ getPhase exFinal 2 = some (.waiting ⟨0, .ok 12⟩ 0 0) :=
  c1_stale_entry_consumes_release.2.2.2.2.2 [] exFinal rfl

/-- C6: when a task finishes — in particular when it throws — the
release step of lines 140-147 still runs in the same `finally`, and the
call then settles with the task's own outcome unchanged: a task error
`e` surfaces as exactly `taskFailure e`, a value `v` as `value v`.
With no waiter queued the flag is false at the moment the call rejects;
with waiters queued the release dequeued the head and left the flag
alone. -/
theorem c6_task_failure_releases_then_propagates :
    ∀ (s : LockSys) (t : Nat) (out : TaskOutcome) (s' : LockSys),
      getPhase s t = some (.running 0 out) → doFinish s t = some s' →
      getPhase s' t = some (.done (resultOf out)) ∧
      (∀ e, out = .err e → getPhase s' t = some (.done (.taskFailure e))) ∧
      (∀ v, out = .ok v → getPhase s' t = some (.done (.value v))) ∧
      (s.queue = [] → s'.locked = false) ∧
      (s.queue ≠ [] → s'.queue = s.queue.tail ∧ s'.locked = s.locked) := by
  intro s t out s' hu hf
  unfold doFinish at hf
  split at hf
  case h_2 => exact absurd hf (by simp)
  case h_1 out' hu' =>
    rw [hu] at hu'
    injection hu' with h1
    injection h1 with h2 h3
    subst h3
    have hmain : getPhase s' t = some (.done (resultOf out)) ∧
        (s.queue = [] → s'.locked = false) ∧
        (s.queue ≠ [] → s'.queue = s.queue.tail ∧ s'.locked = s.locked) := by
      split at hf
      · rename_i hqe
        cases hf
        refine ⟨?_, fun _ => rfl, fun hq => absurd hqe hq⟩
        simp only [getPhase] at hu ⊢
        rw [get?_set_self hu]
      · rename_i w rest hqe
        split at hf
        · rename_i sp2 tw2 ew2 hw
          cases hf
          have hwt : w ≠ t := by
            intro he
            rw [he, get?_set_self (by simpa [getPhase] using hu)] at hw
            cases hw
          refine ⟨?_, ?_, fun _ => ⟨by rw [hqe]; rfl, rfl⟩⟩
          · simp only [getPhase] at hu ⊢
            rw [List.get?_set_ne _ _ hwt, get?_set_self hu]
          · intro hq
            rw [hq] at hqe
            cases hqe
        · cases hf
          refine ⟨?_, ?_, fun _ => ⟨by rw [hqe]; rfl, rfl⟩⟩
          · simp only [getPhase] at hu ⊢
            rw [get?_set_self hu]
          · intro hq
            rw [hq] at hqe
            cases hqe
    refine ⟨hmain.1, ?_, ?_, hmain.2.1, hmain.2.2⟩
    · intro e he
      rw [he] at hmain
      exact hmain.1
    · intro v hv
      rw [hv] at hmain
      exact hmain.1

theorem c6_task_failure_releases_then_propagates_witness :
    getPhase exErrFinal 0 = some (.done (.taskFailure 7)) ∧ exErrFinal.locked = false :=
  have h := c6_task_failure_releases_then_propagates exErrMid 0 (.err 7) exErrFinal
    (by decide) (by decide)
  ⟨h.2.1 7 rfl, h.2.2.2.1 (by decide)⟩

/-- C8: a waiter enqueued with `timeout = 0` has no timer (line 125's
`if (timeout)` skips `setTimeout`), so its timeout event is never
enabled and no step can move it out of `waiting` except a release
granting it the lock; a waiter with `timeout ≠ 0` whose deadline has
passed can fire, failing with exactly the `TimeoutError` whose message
is built from the lock's name and the timeout value (the message
carries both). -/
theorem c8_timeout_semantics :
    ∀ (s : LockSys) (t : Nat) (sp : TaskSpec) (ea : Nat),
      (getPhase s t = some (.waiting sp 0 ea) → doFire s t = none) ∧
      (∀ (e : Ev) (s' : LockSys), getPhase s t = some (.waiting sp 0 ea) →
        stepFn s e = some s' →
        getPhase s' t = some (.waiting sp 0 ea) ∨
        (∃ u, e = .finish u ∧ getPhase s' t = some (.running sp.steps sp.outcome))) ∧
      (∀ tout, tout ≠ 0 → getPhase s t = some (.waiting sp tout ea) → ea + tout ≤ s.now →
        doFire s t = some (setPhase s t (.done (.lockTimeout (timeoutMessage s.name tout))))) ∧
      (∀ tout, ∃ l m r, timeoutMessage s.name tout = l ++ s.name ++ m ++ toString tout ++ r) := by
  intro s t sp ea
  refine ⟨?_, ?_, ?_, ?_⟩
  · intro hx
    unfold doFire
    rw [hx]
    simp
  · intro e s' hx h
    cases e with
    | tick =>
      cases h
      exact Or.inl hx
    | call u =>
      simp only [stepFn] at h
      unfold doCall at h
      split at h
      case h_2 => exact absurd h (by simp)
      case h_1 sp2 tout2 hu =>
        have hne : u ≠ t := by
          intro he; rw [he, hx] at hu; cases hu
        split at h <;> cases h <;> left <;>
          (simp only [getPhase] at hx ⊢; rw [List.get?_set_ne _ _ hne]; exact hx)
    | work u =>
      simp only [stepFn] at h
      unfold doWork at h
      split at h
      case h_2 => exact absurd h (by simp)
      case h_1 k out hu =>
        have hne : u ≠ t := by
          intro he; rw [he, hx] at hu; cases hu
        cases h
        left
        simp only [getPhase, setPhase] at hx ⊢
        rw [List.get?_set_ne _ _ hne]
        exact hx
    | fire u =>
      simp only [stepFn] at h
      unfold doFire at h
      split at h
      case h_2 => exact absurd h (by simp)
      case h_1 sp2 tout2 ea2 hu =>
        by_cases hue : u = t
        · rw [hue, hx] at hu
          injection hu with h1
          injection h1 with h2 h3 h4
          rw [← h3] at h
          split at h
          · rename_i hcond
            exact absurd rfl hcond.1
          · exact absurd h (by simp)
        · split at h
          · cases h
            left
            simp only [getPhase, setPhase] at hx ⊢
            rw [List.get?_set_ne _ _ hue]
            exact hx
          · exact absurd h (by simp)
    | finish u =>
      simp only [stepFn] at h
      unfold doFinish at h
      split at h
      case h_2 => exact absurd h (by simp)
      case h_1 out hu =>
        have hne : u ≠ t := by
          intro he; rw [he, hx] at hu; cases hu
        split at h
        · cases h
          left
          simp only [getPhase] at hx ⊢
          rw [List.get?_set_ne _ _ hne]
          exact hx
        · rename_i w rest hqe
          by_cases hwt : w = t
          · subst hwt
            have hxw : (s.threads.set u (Phase.done (resultOf out))).get? w =
                some (Phase.waiting sp 0 ea) := by
              rw [List.get?_set_ne _ _ hne]
              simpa [getPhase] using hx
            split at h
            · rename_i sp2 tw2 ew2 hw
              cases h
              rw [hxw] at hw
              injection hw with h1
              injection h1 with h2 h3 h4
              subst h2
              right
              refine ⟨u, rfl, ?_⟩
              simp only [getPhase]
              rw [get?_set_self hxw]
            · rename_i hnw
              exact absurd hxw (by intro hc; exact hnw sp 0 ea hc)
          · split at h
            · rename_i sp2 tw2 ew2 hw
              cases h
              left
              simp only [getPhase] at hx ⊢
              rw [List.get?_set_ne _ _ (show w ≠ t from hwt), List.get?_set_ne _ _ hne]
              exact hx
            · cases h
              left
              simp only [getPhase] at hx ⊢
              rw [List.get?_set_ne _ _ hne]
              exact hx
  · intro tout htz hx hdl
    unfold doFire
    rw [hx]
    simp only [setPhase]
    rw [if_pos ⟨htz, hdl⟩]
  · intro tout
    refine ⟨"The provided task did not acquire the ",
      " lock within " ++ "the specified timeout of ", " milliseconds", ?_⟩
    simp [timeoutMessage, String.append_assoc]

theorem c8_timeout_semantics_witness :
    doFire exFinal 2 = none ∧
    doFire exOver 1 = some (setPhase exOver 1
      (.done (.lockTimeout (timeoutMessage exOver.name 5)))) :=
  ⟨(c8_timeout_semantics exFinal 2 ⟨0, .ok 12⟩ 0).1 (by decide),
   (c8_timeout_semantics exOver 1 ⟨0, .ok 11⟩ 0).2.2.1 5 (by decide) (by decide) (by decide)⟩

/-- C9 (amended): validation of lines 102-119 is performed before any
state mutation — a rejected call returns the lock state untouched — and
classifies arguments as the spec says for every *finite* timeout:
non-invocable tasks and non-number or non-integral (fractional or NaN)
timeouts raise `TypeError`, negative integers (and `-Infinity`) raise
`RangeError`.  The acceptance characterization shows the one deviation:
a number passes validation iff it is a non-negative integer *or*
`+Infinity`, which `Math.floor` fixes and the sign check lets through. -/
theorem c9_validation_exhaustive_and_pure :
    (∀ (st : LockState) (t : Nat) (tout : TimeoutArg),
      (lockEnter st t .notFn tout).2.1 = some .typeErr) ∧
    (∀ (st : LockState) (t : Nat) (sp : TaskSpec),
      (lockEnter st t (.fn sp) .nonNum).2.1 = some .typeErr) ∧
    (∀ (st : LockState) (t : Nat) (sp : TaskSpec) (q : ℚ), q.den ≠ 1 →
      (lockEnter st t (.fn sp) (.num (.fin q))).2.1 = some .typeErr) ∧
    (∀ (st : LockState) (t : Nat) (sp : TaskSpec),
      (lockEnter st t (.fn sp) (.num .nan)).2.1 = some .typeErr) ∧
    (∀ (st : LockState) (t : Nat) (sp : TaskSpec) (q : ℚ), q.den = 1 → q < 0 →
      (lockEnter st t (.fn sp) (.num (.fin q))).2.1 = some .rangeErr) ∧
    (∀ (st : LockState) (t : Nat) (sp : TaskSpec),
      (lockEnter st t (.fn sp) (.num .negInf)).2.1 = some .rangeErr) ∧
    (∀ (st : LockState) (t : Nat) (task : TaskArg) (tout : TimeoutArg) (e : VErr),
      (lockEnter st t task tout).2.1 = some e → (lockEnter st t task tout).1 = st) ∧
    (∀ (sp : TaskSpec) (x : JSNum),
      lockValidate (.fn sp) (.num x) = none ↔ (isNonNegIntNum x ∨ x = .posInf)) := by
  refine ⟨?_, ?_, ?_, ?_, ?_, ?_, ?_, ?_⟩
  · intro st t tout
    rfl
  · intro st t sp
    rfl
  · intro st t sp q hq
    simp [lockEnter, lockValidate, jsFloorEqSelf, hq]
  · intro st t sp
    rfl
  · intro st t sp q hq1 hq2
    simp [lockEnter, lockValidate, jsFloorEqSelf, jsLtZero, hq1, hq2]
  · intro st t sp
    rfl
  · intro st t task tout e h
    rcases hv : lockValidate task tout with _ | e'
    · simp only [lockEnter, hv] at h
      split at h <;> simp at h
    · simp [lockEnter, hv]
  · intro sp x
    constructor
    · intro h
      cases x with
      | fin q =>
        simp only [lockValidate] at h
        split at h
        · cases h
        · split at h
          · cases h
          · rename_i hfl hlt
            left
            have h1 : q.den = 1 := by simpa [jsFloorEqSelf] using hfl
            have h2 : ¬(q < 0) := by simpa [jsLtZero] using hlt
            refine ⟨q.num.toNat, ?_⟩
            have h3 : (q.num : ℚ) = q := Rat.coe_int_num_of_den_eq_one h1
            have h4 : 0 ≤ q.num := Rat.num_nonneg.mpr (le_of_not_lt h2)
            congr 1
            rw [← h3]
            norm_cast
            omega
      | posInf => exact Or.inr rfl
      | negInf => simp [lockValidate, jsFloorEqSelf, jsLtZero] at h
      | nan => simp [lockValidate, jsFloorEqSelf, jsLtZero] at h
    · intro h
      rcases h with ⟨n, hn⟩ | hp
      · subst hn
        simp [lockValidate, jsFloorEqSelf, jsLtZero, Rat.den_natCast]
      · subst hp
        rfl

/-- C9 counterexample to the claim as stated: JavaScript's `Infinity`
is a number with `Math.floor(Infinity) === Infinity` and
`Infinity < 0` false, so the validation of lines 108-119 accepts it
although it is not a non-negative integer — "no timeout value outside
the non-negative integers is accepted" fails on the code. -/
theorem c9_infinity_accepted_counterexample :
    lockValidate (.fn ⟨0, .ok 0⟩) (.num .posInf) = none ∧ ¬isNonNegIntNum .posInf :=
  ⟨rfl, fun ⟨_, h⟩ => JSNum.noConfusion h⟩

theorem c9_validation_exhaustive_and_pure_witness :
    (lockEnter ⟨false, []⟩ 0 (.fn ⟨0, .ok 0⟩) (.num (.fin (6 / 5)))).2.1 = some .typeErr ∧
    (lockEnter ⟨true, [3]⟩ 0 (.fn ⟨0, .ok 0⟩) (.num (.fin (-1)))).1 = ⟨true, [3]⟩ ∧
    lockValidate (.fn ⟨0, .ok 0⟩) (.num (.fin 5)) = none :=
  ⟨c9_validation_exhaustive_and_pure.2.2.1 ⟨false, []⟩ 0 ⟨0, .ok 0⟩ (6 / 5) (by norm_num),
   c9_validation_exhaustive_and_pure.2.2.2.2.2.2.1 ⟨true, [3]⟩ 0 (.fn ⟨0, .ok 0⟩)
     (.num (.fin (-1))) .rangeErr (by decide),
   (c9_validation_exhaustive_and_pure.2.2.2.2.2.2.2 ⟨0, .ok 0⟩ (.fin 5)).mpr
     (Or.inl ⟨5, by norm_num⟩)⟩

/-- C2 is violated by the code: line 214 passes `lock => lock.name` to
`Array.prototype.sort`, but a comparator is invoked with *two* locks
and must return a number; this callback returns the first lock's name,
a string, which `SortCompare` coerces with `ToNumber` — `NaN` for any
ordinary (non-numeric) name — and `NaN` counts as `+0`, i.e. "equal".
The sort therefore never reorders ordinarily-named locks: with the
input `[b, a]`, `Lock.all` acquires in input order `[b, a]`, not in the
lexicographic order `[a, b]` that the code's own doc comment
(lines 155-157) and the spec promise. -/
theorem c2_sort_comparator_broken :
    allAcquireOrder ["b", "a"] = ["b", "a"] ∧
    lexSortNames ["b", "a"] = ["a", "b"] ∧
    sortCompare "b" "a" = 0 ∧ sortCompare "a" "b" = 0 := by decide

theorem allBudgetsF_ge_one :
    ∀ (fuel : Nat) (l : List String) (t : Int) (ws : List Nat), 1 ≤ t →
      ∀ p ∈ allBudgetsF fuel l t ws, 1 ≤ p.2 := by
  intro fuel
  induction fuel with
  | zero =>
    intro l t ws ht p hp
    rcases l with _ | ⟨a, _ | ⟨b, rest⟩⟩
    · simp [allBudgetsF] at hp
    · simp [allBudgetsF] at hp
      rw [hp]
      exact ht
    · simp [allBudgetsF] at hp
  | succ n ih =>
    intro l t ws ht p hp
    rcases l with _ | ⟨a, _ | ⟨b, rest⟩⟩
    · simp [allBudgetsF] at hp
    · simp [allBudgetsF] at hp
      rw [hp]
      exact ht
    · simp only [allBudgetsF] at hp
      split at hp
      · simp at hp
      · rename_i s0 srest hs
        simp only [List.mem_cons] at hp
        rcases hp with hp | hp
        · rw [hp]
          exact ht
        · exact ih srest _ _ (le_max_right _ _) p hp

/-- C7: the budget chain of `Lock.all` (lines 210-221): a single lock
delegates directly to `lock` with the current budget; with two or more
locks the first sorted lock is acquired with the full current budget
and the recursion receives `remainingTime budget waited`, i.e.
`Math.max(timeout - timeWaited, 1)`; that recursive budget — and hence
every budget after the first — is at least 1, never zero. -/
theorem c7_budget_recursion :
    (∀ (n : String) (t : Int) (ws : List Nat), allBudgets [n] t ws = [(n, t)]) ∧
    (∀ (t w : Int), remainingTime t w = max (t - w) 1 ∧ 1 ≤ remainingTime t w) ∧
    (∀ (l : List String) (t : Int) (ws : List Nat),
      ∀ p ∈ (allBudgets l t ws).drop 1, 1 ≤ p.2) ∧
    (∀ (a b : String) (rest : List String) (t : Int) (w : Nat) (ws : List Nat)
      (s0 : String) (srest : List String),
      jsSortByName (a :: b :: rest) = s0 :: srest →
      allBudgets (a :: b :: rest) t (w :: ws) =
        (s0, t) :: allBudgetsF (rest.length + 1) srest
          (remainingTime t (Int.ofNat w)) ws) := by
  refine ⟨?_, ?_, ?_, ?_⟩
  · intro n t ws
    rfl
  · intro t w
    exact ⟨rfl, le_max_right _ _⟩
  · intro l t ws p hp
    rcases l with _ | ⟨a, _ | ⟨b, rest⟩⟩
    · simp [allBudgets, allBudgetsF] at hp
    · simp [allBudgets, allBudgetsF] at hp
    · simp only [allBudgets, List.length_cons, allBudgetsF] at hp
      split at hp
      · simp at hp
      · rename_i s0 srest hs
        rw [List.drop_one, List.tail_cons] at hp
        exact allBudgetsF_ge_one _ srest _ _ (le_max_right _ _) p hp
  · intro a b rest t w ws s0 srest hs
    simp only [allBudgets, List.length_cons, allBudgetsF, hs]
    rfl

theorem c7_budget_recursion_witness :
    allBudgets ["c"] 7 [] = [("c", 7)] ∧
    1 ≤ remainingTime 100 30 ∧
    allBudgets ["a", "b", "c"] 100 [30, 200] =
      ("a", 100) :: allBudgetsF 2 ["b", "c"] (remainingTime 100 (Int.ofNat 30)) [200] :=
  ⟨c7_budget_recursion.1 "c" 7 [],
   (c7_budget_recursion.2.1 100 30).2,
   c7_budget_recursion.2.2.2 "a" "b" ["c"] 100 30 [200] "a" ["b", "c"] (by decide)⟩

theorem get?_allocArr (h : JsHeap) (a : List String) (r' : Nat)
    (hr : r' < h.arrays.length) :
    (allocArr h a).1.arrays.get? r' = h.arrays.get? r' := by
  simp only [allocArr]
  exact List.get?_append hr

theorem get?_setArr (h : JsHeap) (u : Nat) (a : List String) (r' : Nat) (hne : u ≠ r') :
    (setArr h u a).arrays.get? r' = h.arrays.get? r' := by
  simp only [setArr]
  exact List.get?_set_ne _ _ hne

theorem length_allocArr (h : JsHeap) (a : List String) :
    (allocArr h a).1.arrays.length = h.arrays.length + 1 := by
  simp [allocArr]

theorem length_setArr (h : JsHeap) (u : Nat) (a : List String) :
    (setArr h u a).arrays.length = h.arrays.length := by
  simp [setArr]

theorem ref_allocArr (h : JsHeap) (a : List String) :
    (allocArr h a).2 = h.arrays.length := rfl

/-- C10: `Lock.all` never mutates the caller's `locks` array: every
`sort` and `shift` hits a fresh `slice` copy (a reference allocated
after the call began), so whatever the recursion depth — including runs
cut short by a timeout or task error, modelled by an arbitrary fuel —
the array behind any pre-existing reference is untouched. -/
theorem c10_locks_array_not_mutated :
    ∀ (fuel : Nat) (h : JsHeap) (r r' : Nat), r' < h.arrays.length →
      (lockAllHeap fuel h r).arrays.get? r' = h.arrays.get? r' := by
  intro fuel
  induction fuel with
  | zero =>
    intro h r r' _
    rfl
  | succ n ih =>
    intro h r r' hr
    simp only [lockAllHeap]
    split
    · rfl
    · have l1 := length_allocArr h (getArr h r)
      have q1 := get?_allocArr h (getArr h r) r' (by omega)
      have r1 := ref_allocArr h (getArr h r)
      set h1 := (allocArr h (getArr h r)).1 with hh1
      set sr := (allocArr h (getArr h r)).2 with hsr
      have hsrne : sr ≠ r' := by omega
      have l2 := length_setArr h1 sr (jsSortByName (getArr h1 sr))
      have q2 := get?_setArr h1 sr (jsSortByName (getArr h1 sr)) r' hsrne
      set h2 := setArr h1 sr (jsSortByName (getArr h1 sr)) with hh2
      have l3 := length_allocArr h2 (getArr h2 sr)
      have q3 := get?_allocArr h2 (getArr h2 sr) r' (by omega)
      have r3 := ref_allocArr h2 (getArr h2 sr)
      set h3 := (allocArr h2 (getArr h2 sr)).1 with hh3
      set cr := (allocArr h2 (getArr h2 sr)).2 with hcr
      have hcrne : cr ≠ r' := by omega
      have l4 := length_setArr h3 cr ((getArr h3 cr).drop 1)
      have q4 := get?_setArr h3 cr ((getArr h3 cr).drop 1) r' hcrne
      set h4 := setArr h3 cr ((getArr h3 cr).drop 1) with hh4
      have l5 := length_allocArr h4 ((getArr h4 sr).drop 1)
      have q5 := get?_allocArr h4 ((getArr h4 sr).drop 1) r' (by omega)
      set h5 := (allocArr h4 ((getArr h4 sr).drop 1)).1 with hh5
      have hih := ih h5 (allocArr h4 ((getArr h4 sr).drop 1)).2 r' (by omega)
      rw [hih, q5, q4, q3, q2, q1]

theorem c10_locks_array_not_mutated_witness :
    0 < ({ arrays := [["b", "a"]] } : JsHeap).arrays.length ∧
    (lockAllHeap 2 { arrays := [["b", "a"]] } 0).arrays.get? 0 =
      ({ arrays := [["b", "a"]] } : JsHeap).arrays.get? 0 :=
  ⟨by decide, c10_locks_array_not_mutated 2 { arrays := [["b", "a"]] } 0 0 (by decide)⟩
